import Mathlib

/-!
Verification of the MUAP analysis core of the openhdemg library
(`openhdemg/library/muap.py`): spike-triggered averaging (`sta`,
`st_muap`), template packing (`unpack_sta`, `pack_sta`), template
alignment (`align_by_xcorr`), MU tracking (`tracking`) and conduction
velocity estimation (`estimate_cv_via_mle`).

The Python code is shallowly embedded: numeric cell values are exact
rationals, `NaN` is modelled as `Option.none`, pandas DataFrames are
lists of labelled columns, and Python built-ins (`round`, slicing) are
embedded with their exact semantics (`round` is round-half-to-even).
-/

namespace OpenHdemg

/-- A numeric cell value of a signal or template: `none` models `NaN`
(the placeholder used by the library for empty channels). -/
abbrev Val := Option ℚ

/-- Python `round` on an exact rational: round half to even
(banker's rounding), as performed by the CPython `round` built-in. -/
def pyRound (x : ℚ) : ℤ :=
  if x - ⌊x⌋ < 1/2 then ⌊x⌋
  else if 1/2 < x - ⌊x⌋ then ⌊x⌋ + 1
  else if ⌊x⌋ % 2 = 0 then ⌊x⌋ else ⌊x⌋ + 1

/-- Python list/array slicing `l[a:b]` with step 1: negative bounds count
from the end, out-of-range bounds are clamped. -/
def pySlice (l : List α) (a b : ℤ) : List α :=
  let n : ℤ := l.length
  let a' : ℤ := if a < 0 then max (n + a) 0 else min a n
  let b' : ℤ := if b < 0 then max (n + b) 0 else min b n
  (l.drop a'.toNat).take (b'.toNat - a'.toNat)

/-- Window conversion of `sta` (muap.py lines 370-373) and `st_muap`
(lines 488-491): `timewindow_samples = round((timewindow / 1000) * FSAMP)`,
`halftime = round(timewindow_samples / 2)`, `tottime = halftime * 2`.
Returns `(halftime, tottime)`. -/
def sta_window (timewindow fsamp : ℚ) : ℤ × ℤ :=
  let timewindow_samples := pyRound ((timewindow / 1000) * fsamp)
  let halftime := pyRound ((timewindow_samples : ℚ) / 2)
  (halftime, halftime * 2)

/-- Window conversion as worded by the specification:
`halfwindow = round(window_ms/1000 * fsamp / 2)`, `fullwindow = 2 * halfwindow`.
Stated for comparison with `sta_window`, which embeds the source. -/
def spec_window (timewindow fsamp : ℚ) : ℤ × ℤ :=
  let halfwindow := pyRound ((timewindow / 1000) * fsamp / 2)
  (halfwindow, 2 * halfwindow)

/-! ### Spike-triggered averaging (`sta`, muap.py lines 395-417)

For one MU, one matrix column and one channel (row), the source slices
`emg_array[pulse - halftime : pulse + halftime]` for each firing `pulse`,
keeps only slices of length exactly `tottime`, and averages them with
`np.mean(sta_values, axis=0)`. When the MU has no firings, a single
all-`NaN` (empty channel) or all-zero vector of length `tottime` stands
in for the slices. -/

/-- Elementwise `NaN`-propagating mean of one sample position across
trials (NumPy mean semantics: any `NaN` operand makes the result `NaN`). -/
def meanVal (vs : List Val) : Val :=
  if vs.any (· = none) then none
  else some ((vs.map (fun v => v.getD 0)).sum / vs.length)

/-- Result of `np.mean(sta_values, axis=0)`: for a nonempty list of
equal-length vectors, the elementwise mean; for an empty list, NumPy
returns a 0-dimensional `NaN` scalar (not a vector), modelled as `none`. -/
def npMeanAxis0 (vss : List (List Val)) : Option (List Val) :=
  match vss with
  | [] => none
  | v :: _ => some ((List.range v.length).map
      (fun i => meanVal (vss.map (fun w => w.getD i none))))

/-- The list `sta_values` built by `sta` for one channel: one slice
`emg_array[pulse - halftime : pulse + halftime]` per firing, keeping only
slices of full length `tottime`; with no firings, one constant vector
(`NaN` for an all-`NaN` channel, else zeros). -/
def sta_values (emg_array : List Val) (thismups : List ℕ)
    (halftime tottime : ℤ) : List (List Val) :=
  if thismups ≠ [] then
    (thismups.map (fun pulse : ℕ =>
      pySlice emg_array ((pulse : ℤ) - halftime) ((pulse : ℤ) + halftime))).filter
      (fun ls => (ls.length : ℤ) = tottime)
  else if emg_array.all (· = none) then
    [List.replicate tottime.toNat (none : Val)]
  else
    [List.replicate tottime.toNat (some (0 : ℚ))]

/-- The template row `row_dict[row] = np.mean(sta_values, axis=0)` computed
by `sta` for one MU, one matrix column and one channel. `none` is the
degenerate 0-dimensional `NaN` produced when every slice was discarded. -/
def sta_row (emg_array : List Val) (thismups : List ℕ)
    (halftime tottime : ℤ) : Option (List Val) :=
  npMeanAxis0 (sta_values emg_array thismups halftime tottime)

/-! ### Template packing (`unpack_sta` / `pack_sta`, muap.py lines 536-615)

A pandas DataFrame is modelled as an ordered list of labelled columns; a
single-MU STA dict as an ordered list of (matrix-column key, DataFrame)
pairs. `unpack_sta` merges the per-key DataFrames on their (shared)
row index with `pd.merge(..., left_index=True, right_index=True)`: the
inner join truncates every column to the shortest row count present, and
concatenates the columns side by side. `pack_sta` splits the merged
DataFrame back into `len(keys)` groups of
`int(np.ceil(n_columns / len(keys)))` columns via `iloc`. -/

/-- A labelled DataFrame column. Labels are the integer channel numbers. -/
abbrev Col := ℕ × List Val

/-- A pandas DataFrame: ordered labelled columns (rectangular by
construction in pandas; theorems carry the rectangularity hypothesis). -/
abbrev Df := List Col

/-- A single-MU STA dict: matrix-column keys to DataFrames, in key order. -/
abbrev StaDict := List (String × Df)

/-- Row count of a DataFrame (the common column length; for the ragged
lists that pandas cannot represent, the shortest column). -/
def dfNrows : Df → ℕ
  | [] => 0
  | c :: cs => (cs.map (fun d => d.2.length)).foldl min c.2.length

/-- unpack_sta (muap.py lines 536-572): concatenate all per-key DataFrames
into one via successive `pd.merge` on the row index (inner join, hence
truncation to the common row range) and return it with the key list. -/
def unpack_sta (sta_mu : StaDict) : Df × List String :=
  let cols := (sta_mu.map (fun kv => kv.2)).flatten
  let n := dfNrows cols
  (cols.map (fun c => (c.1, c.2.take n)), sta_mu.map (fun kv => kv.1))

/-- pack_sta (muap.py lines 575-615): split the merged DataFrame into
`len(keys)` consecutive column groups of width
`slice = int(np.ceil(len(df_sta.columns) / len(keys)))` via
`df_sta.iloc[:, slice*p : slice*(p+1)]`. -/
def pack_sta (df_sta : Df) (keys : List String) : StaDict :=
  let slice := (df_sta.length + keys.length - 1) / keys.length
  (List.range keys.length).zip keys |>.map
    (fun pk => (pk.2, (df_sta.drop (slice * pk.1)).take slice))

/-! ### Template alignment (`align_by_xcorr`, muap.py lines 618-746)

The source unpacks both STA dicts, drops `NaN` columns, computes the
2-dimensional normalized cross-correlation in `"same"` mode
(`norm_twod_xcorr`, from the mathtools module), indexes the correlation
table by `scipy.signal.correlation_lags`, chooses the lag as the median
of the per-column `idxmax`, clamps it (one-sidedly) against
`finalduration_samples / 2`, shifts and trims both DataFrames, resets the
index, and repacks. -/

/-- scipy `signal.correlation_lags(in1_len, in2_len, mode="same")`: the
central `in1_len` entries of the full lag range `-(in2_len-1) .. in1_len-1`,
selected around the midpoint exactly as in the scipy source. -/
def corrLagsSameG (in1_len in2_len : ℕ) : List ℤ :=
  let lags := (List.range (in1_len + in2_len - 1)).map
    (fun i : ℕ => (i : ℤ) - ((in2_len : ℤ) - 1))
  let mid := lags.length / 2
  let lag_bound := in1_len / 2
  if in1_len % 2 = 0 then
    (lags.drop (mid - lag_bound)).take (2 * lag_bound)
  else
    (lags.drop (mid - lag_bound)).take (2 * lag_bound + 1)

/-- pandas `df.dropna(axis=1)`: drop every column containing a `NaN`. -/
def dropnaCols (df : Df) : Df := df.filter (fun c => c.2.all (fun v => v ≠ none))

/-- Numeric contents of a `NaN`-free column. -/
def colQ (c : List Val) : List ℚ := c.map (fun v => v.getD 0)

/-- Zero-padded 2D lookup into a column-major table. -/
def getAt (cols : List (List ℚ)) (q m : ℤ) : ℚ :=
  if 0 ≤ q ∧ 0 ≤ m then (cols.getD q.toNat []).getD m.toNat 0 else 0

/-- Raw sliding 2D cross-correlation value of column-major tables `A`, `B`
at spatial offset `s` and temporal lag `ℓ`:
`Σ_{q,m} A[q+s][m+ℓ] · B[q][m]` with zero outside the tables. -/
def rawCorr2D (A B : List (List ℚ)) (s ℓ : ℤ) : ℚ :=
  ((List.range B.length).map (fun q =>
    ((List.range ((B.getD q []).length)).map (fun m =>
      getAt A ((q : ℤ) + s) ((m : ℤ) + ℓ) * getAt B ((q : ℤ)) ((m : ℤ)))).sum)).sum

/-- Sum of squares of all entries (the square of the Frobenius/L2 norm). -/
def sqNorm (A : List (List ℚ)) : ℚ :=
  (A.map (fun col => (col.map (fun x => x * x)).sum)).sum

/-- Modelled from the spec: `norm_twod_xcorr` in `"same"` mode (defined in
the mathtools module, which is not under src). Per §4.4 it is the standard
sliding-window 2D cross-correlation normalized by the product of the two
tables' L2 norms, returned at the size of the first input; `align_by_xcorr`
reads it as a table with one row per temporal lag (labelled by
`correlation_lags`) and one column per combined spatial index. The
normalizer here is the product of the squared L2 norms — a positive
constant of the pair whenever both tables are nonzero, kept rational so the
model stays executable; the per-column argmax rows, hence the chosen lag,
are invariant under the choice of positive normalizer. Output: one list of
values per spatial output column, each running over the given temporal
lags `tL`. -/
def norm_twod_xcorr_same (A B : List (List ℚ)) (tL : List ℤ) :
    List (List ℚ) :=
  (corrLagsSameG A.length B.length).map (fun s =>
    tL.map (fun ℓ => rawCorr2D A B s ℓ / (sqNorm A * sqNorm B)))

/-- pandas `Series.idxmax` after `set_index(labels)`: the label of the
first occurrence of the maximum value. -/
def idxmaxCol (labels : List ℤ) (vals : List ℚ) : ℚ :=
  match labels.zip vals with
  | [] => 0
  | p :: ps => ((ps.foldl (fun best q => if best.2 < q.2 then q else best) p).1 : ℤ)

/-- numpy/pandas `median` of a nonempty list: middle element of the sorted
values, or the mean of the two middle elements for an even count. -/
def npMedian (l : List ℚ) : ℚ :=
  let s := List.insertionSort (fun a b : ℚ => a ≤ b) l
  if l.length % 2 = 1 then s.getD (l.length / 2) 0
  else (s.getD (l.length / 2 - 1) 0 + s.getD (l.length / 2) 0) / 2

/-- Minimum of a list of integers (`Index.min()`); 0 for the empty list. -/
def zmin : List ℤ → ℤ
  | [] => 0
  | x :: xs => xs.foldl min x

/-- Maximum of a list of integers (`Index.max()`); 0 for the empty list. -/
def zmax : List ℤ → ℤ
  | [] => 0
  | x :: xs => xs.foldl max x

/-- The lag labels used by `align_by_xcorr`:
`signal.correlation_lags(len(no_nan_sta1.index), len(no_nan_sta2.index), mode="same")`.
The pandas row index survives `dropna(axis=1)`, so the lengths are the row
counts of the merged DataFrames. -/
def align_corr_lags (sta_mu1 sta_mu2 : StaDict) : List ℤ :=
  corrLagsSameG (dfNrows (unpack_sta sta_mu1).1) (dfNrows (unpack_sta sta_mu2).1)

/-- The raw lag chosen by `align_by_xcorr` (muap.py line 710):
`normxcorr_df.set_index(corr_lags).idxmax().median()`. -/
def align_lag_raw (sta_mu1 sta_mu2 : StaDict) : ℚ :=
  let A := (dropnaCols (unpack_sta sta_mu1).1).map (fun c => colQ c.2)
  let B := (dropnaCols (unpack_sta sta_mu2).1).map (fun c => colQ c.2)
  let tL := align_corr_lags sta_mu1 sta_mu2
  npMedian ((norm_twod_xcorr_same A B tL).map (fun vals => idxmaxCol tL vals))

/-- `finalduration_samples = round(len(df1.index) * finalduration)`
(muap.py line 714). -/
def align_fds (sta_mu1 : StaDict) (finalduration : ℚ) : ℤ :=
  pyRound ((dfNrows (unpack_sta sta_mu1).1 : ℚ) * finalduration)

/-- The lag after the bound check of muap.py lines 715-716: only
`lag > finalduration_samples / 2` is clamped; a negative lag is returned
unchanged. -/
def align_lag (sta_mu1 sta_mu2 : StaDict) (finalduration : ℚ) : ℚ :=
  let lag := align_lag_raw sta_mu1 sta_mu2
  let fds := align_fds sta_mu1 finalduration
  if (fds : ℚ) / 2 < lag then (fds : ℚ) / 2 else lag

/-- Row positions kept by `df1.set_index(corr_lags).loc[start1:stop1, :]`
(muap.py lines 722-728): labels within the inclusive window
`[dfmin + |lag|, dfmax]` if `lag > 0`, else `[dfmin, dfmax - |lag|]`. -/
def align_keep1 (sta_mu1 sta_mu2 : StaDict) (finalduration : ℚ) : List ℕ :=
  let lag := align_lag sta_mu1 sta_mu2 finalduration
  let lags := align_corr_lags sta_mu1 sta_mu2
  let start1 : ℚ := if 0 < lag then (zmin lags : ℚ) + |lag| else (zmin lags : ℚ)
  let stop1 : ℚ := if 0 < lag then (zmax lags : ℚ) else (zmax lags : ℚ) - |lag|
  (List.range lags.length).filter
    (fun i => decide (start1 ≤ (lags.getD i 0 : ℚ) ∧ (lags.getD i 0 : ℚ) ≤ stop1))

/-- Row positions kept for the second series (muap.py lines 725-729):
the window conditions use `lag < 0` instead of `lag > 0`. -/
def align_keep2 (sta_mu1 sta_mu2 : StaDict) (finalduration : ℚ) : List ℕ :=
  let lag := align_lag sta_mu1 sta_mu2 finalduration
  let lags := align_corr_lags sta_mu1 sta_mu2
  let start2 : ℚ := if lag < 0 then (zmin lags : ℚ) + |lag| else (zmin lags : ℚ)
  let stop2 : ℚ := if lag < 0 then (zmax lags : ℚ) else (zmax lags : ℚ) - |lag|
  (List.range lags.length).filter
    (fun i => decide (start2 ≤ (lags.getD i 0 : ℚ) ∧ (lags.getD i 0 : ℚ) ≤ stop2))

/-- `len(df1cut.index)` before the final-duration trim. -/
def align_m (sta_mu1 sta_mu2 : StaDict) (finalduration : ℚ) : ℕ :=
  (align_keep1 sta_mu1 sta_mu2 finalduration).length

/-- `tocutstart = round((len(df1cut.index) - finalduration_samples) / 2)`
(muap.py line 732). -/
def align_tocutstart (sta_mu1 sta_mu2 : StaDict) (finalduration : ℚ) : ℤ :=
  pyRound (((align_m sta_mu1 sta_mu2 finalduration : ℚ) -
    (align_fds sta_mu1 finalduration : ℚ)) / 2)

/-- `tocutend = round(len(df1cut.index) - tocutstart)` (muap.py line 733). -/
def align_tocutend (sta_mu1 sta_mu2 : StaDict) (finalduration : ℚ) : ℤ :=
  pyRound ((align_m sta_mu1 sta_mu2 finalduration : ℚ) -
    (align_tocutstart sta_mu1 sta_mu2 finalduration : ℚ))

/-- Rows of one column selected by label window `keep`, then trimmed with
`iloc[tocutstart:tocutend]` and reindexed from zero (a plain list). -/
def selectRows (d : List Val) (keep : List ℕ) (t e : ℤ) : List Val :=
  pySlice (keep.map (fun i => d.getD i none)) t e

/-- align_by_xcorr (muap.py lines 618-746): the pair of aligned, trimmed
and repacked STA dicts. Note the source unpacks both inputs into the same
variable `d_keys`, so both outputs are repacked with the keys of
`sta_mu2`. -/
def align_by_xcorr (sta_mu1 sta_mu2 : StaDict) (finalduration : ℚ) :
    StaDict × StaDict :=
  let df1 := (unpack_sta sta_mu1).1
  let df2 := (unpack_sta sta_mu2).1
  let d_keys := (unpack_sta sta_mu2).2
  let keep1 := align_keep1 sta_mu1 sta_mu2 finalduration
  let keep2 := align_keep2 sta_mu1 sta_mu2 finalduration
  let t := align_tocutstart sta_mu1 sta_mu2 finalduration
  let e := align_tocutend sta_mu1 sta_mu2 finalduration
  let df1cut := df1.map (fun c => (c.1, selectRows c.2 keep1 t e))
  let df2cut := df2.map (fun c => (c.1, selectRows c.2 keep2 t e))
  (pack_sta df1cut d_keys, pack_sta df2cut d_keys)

/-- Length of a Python slice `l[a:b]` of an `n`-element list. -/
def pySliceLen (n : ℕ) (a b : ℤ) : ℕ :=
  let nz : ℤ := n
  let a' : ℤ := if a < 0 then max (nz + a) 0 else min a nz
  let b' : ℤ := if b < 0 then max (nz + b) 0 else min b nz
  b'.toNat - a'.toNat

/-- The common column length of both outputs of `align_by_xcorr`. -/
def align_out_len (sta_mu1 sta_mu2 : StaDict) (finalduration : ℚ) : ℕ :=
  pySliceLen (align_m sta_mu1 sta_mu2 finalduration)
    (align_tocutstart sta_mu1 sta_mu2 finalduration)
    (align_tocutend sta_mu1 sta_mu2 finalduration)

/-! ### Tracking (`tracking`, muap.py lines 751-1210)

A result row is `(MU_file1, MU_file2, XCC)`. The per-MU comparison task
(the inner `parallel` closure, lines 1051-1088) is embedded parametrically
in the pairwise similarity `xccOf` — in the source the value is
`norm_twod_xcorr(...)` in `"full"` mode on the (aligned) templates; all
claims below quantify over it. -/

/-- A tracking result row `(MU_file1, MU_file2, XCC)`. -/
abbrev Row := ℕ × ℕ × ℚ

/-- The retention decision of the threshold phase (muap.py lines
1078-1086): `if exclude_belowthreshold is False: append`
`elif exclude_belowthreshold and normxcorr_max >= threshold: append`. -/
def retainPair (exclude_belowthreshold : Bool) (threshold xcc : ℚ) : Bool :=
  if exclude_belowthreshold = false then true
  else if exclude_belowthreshold ∧ threshold ≤ xcc then true
  else false

/-- The body of the `parallel` closure for one MU of file 1: compare it
against every MU of file 2 and keep the retained rows in order. -/
def compareTask (nB : ℕ) (xccOf : ℕ → ℕ → ℚ)
    (exclude_belowthreshold : Bool) (threshold : ℚ) (mu_file1 : ℕ) :
    List Row :=
  (List.range nB).filterMap (fun mu_file2 =>
    if retainPair exclude_belowthreshold threshold (xccOf mu_file1 mu_file2)
    then some (mu_file1, mu_file2, xccOf mu_file1 mu_file2)
    else none)

/-- The parallel execution path (muap.py lines 1090-1095):
`joblib.Parallel` dispatches `parallel(mu_file1)` for every MU of file 1
and returns the per-task results in dispatch order. -/
def parallelExec (n : ℕ) (task : ℕ → List Row) : List (List Row) :=
  (List.range n).map task

/-- The serial fallback (muap.py lines 1097-1110): the same task function
applied in a loop, appending each result. -/
def serialExec (n : ℕ) (task : ℕ → List Row) : List (List Row) :=
  (List.range n).foldl (fun acc mu_file1 => acc ++ [task mu_file1]) []

/-- One step of the result-aggregation loop (muap.py lines 1113-1123).
Both `if` statements of the source are kept: when the accumulator is
empty and the new frame is not, the first `if` assigns it and the second
`if` then concatenates it again. -/
def aggStep (tr new : List Row) : List Row :=
  let tr1 := if tr = [] ∧ new ≠ [] then new else tr
  if tr1 ≠ [] ∧ new ≠ [] then tr1 ++ new else tr1

/-- Aggregation of the per-task result frames into `tracking_res`. -/
def aggregate : List (List Row) → List Row
  | [] => []
  | r :: rs => rs.foldl aggStep r

/-- Descending lexicographic order on `(MU_file1, XCC)` used by
`sort_values(by=["MU_file1", "XCC"], ascending=False)`. -/
def rowGe1 (a b : Row) : Prop :=
  b.1 < a.1 ∨ (a.1 = b.1 ∧ b.2.2 ≤ a.2.2)

/-- Descending lexicographic order on `(MU_file2, XCC)` used by
`sort_values(by=["MU_file2", "XCC"], ascending=False)`. -/
def rowGe2 (a b : Row) : Prop :=
  b.2.1 < a.2.1 ∨ (a.2.1 = b.2.1 ∧ b.2.2 ≤ a.2.2)

/-- Ascending order on `MU_file1` used by the final
`sort_values(by=["MU_file1"])`. -/
def rowLe1 (a b : Row) : Prop := a.1 ≤ b.1

instance : DecidableRel rowGe1 := fun a b => by unfold rowGe1; infer_instance
instance : DecidableRel rowGe2 := fun a b => by unfold rowGe2; infer_instance
instance : DecidableRel rowLe1 := fun a b => by unfold rowLe1; infer_instance

/-- Keep the first row of each key group, in encounter order: the effect
of iterating `unique()` over a sorted frame and taking `iloc[0]` of each
group (muap.py lines 1132-1151). `seen` holds the keys already emitted. -/
def keepFirstByKey (key : Row → ℕ) : List Row → List ℕ → List Row
  | [], _ => []
  | r :: rs, seen =>
      if key r ∈ seen then keepFirstByKey key rs seen
      else r :: keepFirstByKey key rs (key r :: seen)

/-- The filter phase of `tracking` (muap.py lines 1125-1153): sort by
`(MU_file1, XCC)` descending and keep the best row per `MU_file1`; sort
the survivors by `(MU_file2, XCC)` descending and keep the best row per
`MU_file2`; finally sort by `MU_file1` ascending. pandas `sort_values`
leaves the order of ties unspecified (quicksort); the embedding fixes a
deterministic stable sort — every property proved below is independent
of the tie order. -/
def filterPhase (rows : List Row) : List Row :=
  List.insertionSort rowLe1
    (keepFirstByKey (fun r => r.2.1)
      (List.insertionSort rowGe2
        (keepFirstByKey (fun r => r.1)
          (List.insertionSort rowGe1 rows) [])) [])

/-- The full row pipeline of `tracking` after the STA phase: execute the
comparison tasks (parallel or serial), aggregate, and filter (the
`filter=False` branch only re-sorts and is not needed by the claims). -/
def trackingRows (multiproc : Bool) (nA nB : ℕ) (xccOf : ℕ → ℕ → ℚ)
    (exclude_belowthreshold : Bool) (threshold : ℚ) : List Row :=
  filterPhase (aggregate
    (if multiproc then
      parallelExec nA (compareTask nB xccOf exclude_belowthreshold threshold)
    else
      serialExec nA (compareTask nB xccOf exclude_belowthreshold threshold)))

/-! ### Configuration validation of `tracking` (muap.py lines 988-1046)

`custom_muaps` is `None` or an arbitrary Python object; only
`isinstance(custom_muaps, list)` selects the custom branch. In the STA
branch the derivation mode is dispatched after `sort_rawemg` (the
electrode-sorting collaborator, an opaque already-validated producer per
§6 of the spec) and an unknown mode raises `ValueError` before any STA is
computed. In the custom branch a list whose length differs from 2, or
whose entries are not dictionaries, raises `ValueError`; the `derivation`
argument is never inspected there. -/

/-- Python error kinds relevant to the embedded functions. -/
inductive PyError where
  | valueError
  | indexError
deriving DecidableEq, Repr

/-- An element of a `custom_muaps` list: a dictionary (an STA dict) or
some other object. -/
inductive PyObj where
  | dict (d : StaDict)
  | nonDict
deriving DecidableEq

/-- The two template sources resolved by the setup phase. -/
inductive StaSource where
  | computed (derivation : String)
  | provided (d1 d2 : StaDict)
deriving DecidableEq

/-- The setup phase of `tracking`: resolve the template source or raise
`ValueError`. `custom_muaps = none` models any non-list argument
(including the default `None`). -/
def trackingSetup (derivation : String) (custom_muaps : Option (List PyObj)) :
    Except PyError StaSource :=
  match custom_muaps with
  | none =>
      if derivation = "mono" ∨ derivation = "sd" ∨ derivation = "dd" then
        Except.ok (StaSource.computed derivation)
      else Except.error PyError.valueError
  | some l =>
      if l.length = 2 then
        match l.get? 0, l.get? 1 with
        | some (PyObj.dict d1), some (PyObj.dict d2) =>
            Except.ok (StaSource.provided d1 d2)
        | _, _ => Except.error PyError.valueError
      else Except.error PyError.valueError

/-- tracking, as setup followed by the heavy phases: the STA extraction,
comparison grid and filtering run only when the setup succeeds, so a
setup error is raised before any heavy computation. `heavy` abstracts
lines 1048-1210 applied to the resolved template source. -/
def trackingRun (derivation : String) (custom_muaps : Option (List PyObj))
    (heavy : StaSource → List Row) : Except PyError (List Row) :=
  (trackingSetup derivation custom_muaps).map heavy

/-! ### Conduction velocity (`estimate_cv_via_mle`, muap.py lines 2009-2096)

The function transposes the input DataFrame to channel-major order and
immediately indexes channels 1 and 2 (more than three channels) or 0 and
1 (otherwise); with fewer than two channels the indexing itself raises
`IndexError`. No validation of the channel count or of sample-count
consistency exists in the source. `find_mle_teta` and `mle_cv_est` live
in the mathtools module (not under src) and are abstracted as function
parameters; every claim below holds for all of them. -/

/-- Channel-pair selection of muap.py lines 2073-2078. -/
def cvPick (sig : List (List ℚ)) : Except PyError (List ℚ × List ℚ) :=
  if 3 < sig.length then
    match sig.get? 1, sig.get? 2 with
    | some s1, some s2 => Except.ok (s1, s2)
    | _, _ => Except.error PyError.indexError
  else
    match sig.get? 0, sig.get? 1 with
    | some s1, some s2 => Except.ok (s1, s2)
    | _, _ => Except.error PyError.indexError

/-- estimate_cv_via_mle (muap.py lines 2064-2096): pick the channel pair,
run the MLE delay search and the joint velocity refinement, return the
absolute velocity. -/
def estimate_cv_via_mle
    (find_mle_teta : List ℚ → List ℚ → ℚ)
    (mle_cv_est : List (List ℚ) → ℚ → ℚ × ℚ)
    (sig : List (List ℚ)) : Except PyError ℚ := do
  let (s1, s2) ← cvPick sig
  let teta := find_mle_teta s1 s2
  let (cv, _) := mle_cv_est sig teta
  return |cv|

/-! ### Auxiliary definitions used by the theorems -/

/-- The configurations accepted by the setup phase of `tracking`: either
no custom MUAP list and a known derivation mode, or a list of exactly two
dictionaries. -/
def validTrackingConfig (derivation : String)
    (custom_muaps : Option (List PyObj)) : Prop :=
  match custom_muaps with
  | none => derivation = "mono" ∨ derivation = "sd" ∨ derivation = "dd"
  | some l => ∃ d1 d2, l = [PyObj.dict d1, PyObj.dict d2]

/-- The list `lo, lo+1, ..., lo+L-1` of consecutive integers. -/
def consecutiveZ (lo : ℤ) (L : ℕ) : List ℤ :=
  (List.range L).map (fun i : ℕ => lo + (i : ℤ))

/-- A unit impulse template column: `n` samples, 1 at position `j`. -/
def impulse (n j : ℕ) : List Val :=
  (List.range n).map (fun i => if i = j then some 1 else some 0)

/-- Single-column, single-channel STA dict with an 8-sample impulse at
position 2. -/
def staEx1 : StaDict := [("col0", [(0, impulse 8 2)])]

/-- Single-column, single-channel STA dict with an 8-sample impulse at
position 5: a copy of `staEx1` delayed by 3 samples. -/
def staEx2 : StaDict := [("col0", [(0, impulse 8 5)])]

/-- Single-column, single-channel STA dict with a 10-sample impulse at
position 5. -/
def staEx3 : StaDict := [("col0", [(0, impulse 10 5)])]

/-- Single-column, single-channel STA dict with a 9-sample impulse at
position 4. -/
def staEx4 : StaDict := [("col0", [(0, impulse 9 4)])]

/-- A two-column STA dict with two one-sample channels per column, used
to witness the pack/unpack round trip. -/
def staEx5 : StaDict :=
  [("col0", [(0, [some 1]), (1, [some 2])]),
   ("col1", [(2, [some 3]), (3, [some 4])])]

/-! ## Helper lemmas -/

theorem pyRound_intCast (k : ℤ) : pyRound (k : ℚ) = k := by
  unfold pyRound
  norm_num [Int.floor_intCast]

theorem pyRound_dist (x : ℚ) : |x - pyRound x| ≤ 1 / 2 := by
  have h0 : (⌊x⌋ : ℚ) ≤ x := Int.floor_le x
  have h1 : x < ⌊x⌋ + 1 := Int.lt_floor_add_one x
  unfold pyRound
  split
  · rw [abs_le]; constructor <;> push_cast <;> linarith
  · split
    · rw [abs_le]; constructor <;> push_cast <;> linarith
    · split <;> (rw [abs_le]; constructor <;> push_cast <;> linarith)

theorem pyRound_close (y : ℚ) (k : ℤ) (h1 : (k : ℚ) - 1 / 4 ≤ y)
    (h2 : y ≤ (k : ℚ) + 1 / 4) : pyRound y = k := by
  rcases le_or_lt (k : ℚ) y with hk | hk
  · have hf : ⌊y⌋ = k := by
      rw [Int.floor_eq_iff]
      exact ⟨hk, by push_cast; linarith⟩
    unfold pyRound
    rw [hf, if_pos (by linarith : y - (k : ℚ) < 1 / 2)]
  · have hf : ⌊y⌋ = k - 1 := by
      rw [Int.floor_eq_iff]
      constructor <;> push_cast <;> linarith
    have hc : ((k - 1 : ℤ) : ℚ) = (k : ℚ) - 1 := by push_cast; ring
    unfold pyRound
    rw [hf, hc, if_neg (by linarith : ¬(y - ((k : ℚ) - 1) < 1 / 2)),
      if_pos (by linarith : 1 / 2 < y - ((k : ℚ) - 1))]
    ring

theorem pyRound_nonneg (x : ℚ) (h : 0 ≤ x) : 0 ≤ pyRound x := by
  have h2 : |x - pyRound x| ≤ 1 / 2 := pyRound_dist x
  rw [abs_le] at h2
  by_contra hneg
  push_neg at hneg
  have h3 : pyRound x ≤ -1 := by omega
  have h4 : (pyRound x : ℚ) ≤ -1 := by exact_mod_cast h3
  linarith [h2.2]

/-! ## Claims -/

/-- C9 counterexample: at `timewindow = 11` ms and `fsamp = 250` Hz the
source (`sta`/`st_muap`) computes `halfwindow = round(round(2.75)/2) = 2`,
while the claimed formula gives `round(2.75/2) = round(1.375) = 1`. -/
theorem window_conversion_cex :
    (sta_window 11 250).1 = 2 ∧ (spec_window 11 250).1 = 1 ∧
      (sta_window 11 250).1 ≠ (spec_window 11 250).1 := by
  with_unfolding_all decide

/-- C9 (amended): the source converts the window in two rounding steps,
`halfwindow = round(round(window_ms/1000 · fsamp) / 2)` and
`fullwindow = 2 · halfwindow`; the single-rounding formula of the claim
agrees with it whenever `round(window_ms/1000 · fsamp)` is even, but not
in general. -/
theorem window_conversion_amended (w f : ℚ)
    (h : pyRound ((w / 1000) * f) % 2 = 0) :
    (sta_window w f).1 = (spec_window w f).1 ∧
      (sta_window w f).2 = 2 * (sta_window w f).1 := by
  obtain ⟨k, hk⟩ : ∃ k, pyRound ((w / 1000) * f) = 2 * k :=
    ⟨pyRound ((w / 1000) * f) / 2, by omega⟩
  have hdist := pyRound_dist ((w / 1000) * f)
  rw [hk, abs_le] at hdist
  constructor
  · show pyRound ((pyRound ((w / 1000) * f) : ℚ) / 2) =
      pyRound ((w / 1000) * f / 2)
    rw [hk]
    have h1 : ((2 * k : ℤ) : ℚ) / 2 = (k : ℚ) := by push_cast; ring
    rw [h1, pyRound_intCast]
    refine (pyRound_close _ k ?_ ?_).symm
    · push_cast at hdist ⊢; linarith [hdist.1]
    · push_cast at hdist ⊢; linarith [hdist.2]
  · show pyRound ((pyRound ((w / 1000) * f) : ℚ) / 2) * 2 =
      2 * pyRound ((pyRound ((w / 1000) * f) : ℚ) / 2)
    ring

/-- C9 witness: at `timewindow = 10` ms, `fsamp = 1000` Hz the rounded
sample count 10 is even and both formulas give `halfwindow = 5`. -/
theorem window_conversion_amended_witness :
    pyRound (((10 : ℚ) / 1000) * 1000) % 2 = 0 ∧
      ((sta_window 10 1000).1 = (spec_window 10 1000).1 ∧
        (sta_window 10 1000).2 = 2 * (sta_window 10 1000).1) :=
  ⟨by with_unfolding_all decide,
    window_conversion_amended 10 1000 (by with_unfolding_all decide)⟩

/-- C2 counterexample: a single firing at sample 1 of a 5-sample non-`NaN`
channel with `halftime = 2`, `tottime = 4`. The extracted slice
`emg_array[-1:3]` is empty (Python wraps the negative start), so it is
discarded; `np.mean([], axis=0)` is then a 0-dimensional `NaN` scalar,
not a vector of length `fullwindow = 4`. -/
theorem sta_row_shape_cex :
    sta_row (List.replicate 5 (some 0)) [1] 2 4 = none ∧
      sta_values (List.replicate 5 (some 0)) [1] 2 4 = [] := by
  with_unfolding_all decide

/-- C2 (amended): the template row produced by `sta` has length exactly
`fullwindow` whenever the MU has no firings, or at least one extracted
slice survives the full-length check; slices shorter than `fullwindow`
are discarded (not padded), and when every slice is discarded the result
degenerates to a scalar `NaN` instead of a `fullwindow`-length vector. -/
theorem npMeanAxis0_cons (v : List Val) (vs : List (List Val)) :
    npMeanAxis0 (v :: vs) = some ((List.range v.length).map
      (fun i => meanVal ((v :: vs).map (fun w => w.getD i none)))) := rfl

theorem sta_row_shape_amended (emg_array : List Val) (thismups : List ℕ)
    (halftime tottime : ℤ) (htot : 0 ≤ tottime)
    (h : thismups = [] ∨ ∃ p ∈ thismups,
      (pySlice emg_array ((p : ℤ) - halftime) ((p : ℤ) + halftime)).length
        = tottime.toNat) :
    ∃ v, sta_row emg_array thismups halftime tottime = some v ∧
      v.length = tottime.toNat := by
  unfold sta_row
  rcases h with h | ⟨p, hp, hlen⟩
  · subst h
    unfold sta_values
    rw [if_neg (by simp)]
    by_cases hc : (emg_array.all fun v => decide (v = none)) = true
    · rw [if_pos hc, npMeanAxis0_cons]
      exact ⟨_, rfl, by simp⟩
    · rw [if_neg hc, npMeanAxis0_cons]
      exact ⟨_, rfl, by simp⟩
  · have hne : thismups ≠ [] := by rintro rfl; simp at hp
    have hmem : pySlice emg_array ((p : ℤ) - halftime) ((p : ℤ) + halftime) ∈
        sta_values emg_array thismups halftime tottime := by
      unfold sta_values
      rw [if_pos hne]
      refine List.mem_filter.mpr ⟨?_, ?_⟩
      · exact List.mem_map_of_mem
          (fun pulse : ℕ =>
            pySlice emg_array ((pulse : ℤ) - halftime) ((pulse : ℤ) + halftime)) hp
      · rw [decide_eq_true_iff]
        omega
    obtain ⟨v, vs, hvs⟩ : ∃ v vs,
        sta_values emg_array thismups halftime tottime = v :: vs := by
      rcases hq : sta_values emg_array thismups halftime tottime with _ | ⟨v, vs⟩
      · rw [hq] at hmem; simp at hmem
      · exact ⟨v, vs, rfl⟩
    rw [hvs, npMeanAxis0_cons]
    refine ⟨_, rfl, ?_⟩
    have hv : v ∈ sta_values emg_array thismups halftime tottime := by
      rw [hvs]; exact List.mem_cons_self v vs
    have hvlen : (v.length : ℤ) = tottime := by
      unfold sta_values at hv
      rw [if_pos hne] at hv
      have h2 := (List.mem_filter.mp hv).2
      rw [decide_eq_true_iff] at h2
      exact h2
    simp only [List.length_map, List.length_range]
    omega

/-- C2 witness: a firing at sample 2 of the same 5-sample channel yields
the full-length slice `[0:4]`, so the template row is a 4-sample vector. -/
theorem sta_row_shape_amended_witness :
    ((0 : ℤ) ≤ 4 ∧ (([2] : List ℕ) = [] ∨ ∃ p ∈ ([2] : List ℕ),
      (pySlice (List.replicate 5 (some (0 : ℚ))) ((p : ℤ) - 2) ((p : ℤ) + 2)).length
        = (4 : ℤ).toNat)) ∧
    ∃ v, sta_row (List.replicate 5 (some 0)) [2] 2 4 = some v ∧
      v.length = (4 : ℤ).toNat :=
  ⟨⟨by decide, by with_unfolding_all decide⟩,
    sta_row_shape_amended (List.replicate 5 (some 0)) [2] 2 4
      (by decide) (by with_unfolding_all decide)⟩

/-- C8: `estimate_cv_via_mle` performs no validation. With a single
channel (or none) it fails before the MLE search, but with an incidental
`IndexError` raised by the channel indexing of lines 2073-2078 — not with
the validation error required by the claim; inconsistent per-channel
sample counts are never checked (the MLE-search functions are
universally quantified, so nothing downstream can mask the error). -/
theorem estimate_cv_mle_missing_validation :
    (∀ find_teta mle_est, estimate_cv_via_mle find_teta mle_est [[0, 0, 0]]
      = Except.error PyError.indexError) ∧
    (∀ find_teta mle_est, estimate_cv_via_mle find_teta mle_est []
      = Except.error PyError.indexError) ∧
    PyError.indexError ≠ PyError.valueError :=
  ⟨fun _ _ => rfl, fun _ _ => rfl, by decide⟩

/-- C4: the threshold phase retains a pair exactly when
`exclude_belowthreshold` is false or its XCC is at least `threshold`
(inclusive comparison, so a pair with XCC equal to the threshold is
retained), both as the raw retention decision and as membership of the
row in the output of the comparison task. -/
theorem tracking_threshold_retention (nB : ℕ) (xccOf : ℕ → ℕ → ℚ)
    (ebt : Bool) (thr : ℚ) (i j : ℕ) :
    (retainPair ebt thr (xccOf i j) = true ↔
      (ebt = false ∨ thr ≤ xccOf i j)) ∧
    ((i, j, xccOf i j) ∈ compareTask nB xccOf ebt thr i ↔
      (j < nB ∧ (ebt = false ∨ thr ≤ xccOf i j))) := by
  have hretain : ∀ x : ℚ, retainPair ebt thr x = true ↔ (ebt = false ∨ thr ≤ x) := by
    intro x
    unfold retainPair
    rcases ebt with _ | _ <;> simp
  constructor
  · exact hretain _
  · unfold compareTask
    rw [List.mem_filterMap]
    constructor
    · rintro ⟨a, ha, hfa⟩
      by_cases hr : retainPair ebt thr (xccOf i a) = true
      · rw [if_pos hr] at hfa
        simp only [Option.some.injEq, Prod.mk.injEq] at hfa
        obtain ⟨-, rfl, -⟩ := hfa
        exact ⟨List.mem_range.mp ha, (hretain _).mp hr⟩
      · rw [if_neg hr] at hfa; cases hfa
    · rintro ⟨hj, hcond⟩
      refine ⟨j, List.mem_range.mpr hj, ?_⟩
      rw [if_pos ((hretain _).mpr hcond)]

/-- C6: the parallel path (`joblib.Parallel`, which returns per-task
results in dispatch order) and the serial fallback produce identical
task-result lists, hence identical aggregated and filtered tracking rows
for every input — in particular identical row sets. -/
theorem tracking_parallel_serial_equiv (nA nB : ℕ) (xccOf : ℕ → ℕ → ℚ)
    (ebt : Bool) (thr : ℚ) :
    trackingRows true nA nB xccOf ebt thr
      = trackingRows false nA nB xccOf ebt thr := by
  have hfold : ∀ (l : List ℕ) (f : ℕ → List Row) (acc : List (List Row)),
      l.foldl (fun a x => a ++ [f x]) acc = acc ++ l.map f := by
    intro l
    induction l with
    | nil => intro f acc; simp
    | cons x xs ih => intro f acc; simp [ih]
  unfold trackingRows parallelExec serialExec
  rw [if_pos rfl, if_neg (by simp), hfold]
  simp

theorem keepFirstByKey_sublist (key : Row → ℕ) (l : List Row) (seen : List ℕ) :
    (keepFirstByKey key l seen).Sublist l := by
  induction l generalizing seen with
  | nil => simp [keepFirstByKey]
  | cons r rs ih =>
    unfold keepFirstByKey
    by_cases h : key r ∈ seen
    · rw [if_pos h]; exact (ih seen).cons r
    · rw [if_neg h]; exact (ih _).cons₂ r

theorem keepFirstByKey_key_nodup (key : Row → ℕ) (l : List Row) (seen : List ℕ) :
    ((keepFirstByKey key l seen).map key).Nodup ∧
      ∀ x ∈ (keepFirstByKey key l seen).map key, x ∉ seen := by
  induction l generalizing seen with
  | nil => simp [keepFirstByKey]
  | cons r rs ih =>
    unfold keepFirstByKey
    by_cases h : key r ∈ seen
    · rw [if_pos h]; exact ih seen
    · rw [if_neg h]
      obtain ⟨ihn, ihs⟩ := ih (key r :: seen)
      refine ⟨?_, ?_⟩
      · rw [List.map_cons, List.nodup_cons]
        refine ⟨fun hmem => ?_, ihn⟩
        exact (ihs _ hmem) (List.mem_cons_self _ _)
      · intro x hx
        rw [List.map_cons, List.mem_cons] at hx
        rcases hx with rfl | hx
        · exact h
        · intro hxseen
          exact (ihs x hx) (List.mem_cons_of_mem _ hxseen)

instance : IsTotal Row rowLe1 := ⟨fun a b => le_total a.1 b.1⟩

instance : IsTrans Row rowLe1 := ⟨fun _ _ _ hab hbc => le_trans hab hbc⟩

theorem filterPhase_unique_sorted (rows : List Row) :
    ((filterPhase rows).map (fun r => r.1)).Nodup ∧
      ((filterPhase rows).map (fun r => r.2.1)).Nodup ∧
      List.Sorted rowLe1 (filterPhase rows) := by
  unfold filterPhase
  have h1 : ((keepFirstByKey (fun r => r.1)
      (List.insertionSort rowGe1 rows) []).map (fun r => r.1)).Nodup :=
    (keepFirstByKey_key_nodup _ _ _).1
  have hs2p : (List.insertionSort rowGe2 (keepFirstByKey (fun r => r.1)
      (List.insertionSort rowGe1 rows) [])).Perm
      (keepFirstByKey (fun r => r.1) (List.insertionSort rowGe1 rows) []) :=
    List.perm_insertionSort _ _
  have h1s2 : ((List.insertionSort rowGe2 (keepFirstByKey (fun r => r.1)
      (List.insertionSort rowGe1 rows) [])).map (fun r => r.1)).Nodup :=
    ((hs2p.map _).nodup_iff).mpr h1
  have hp2sub := keepFirstByKey_sublist (fun r => r.2.1)
    (List.insertionSort rowGe2 (keepFirstByKey (fun r => r.1)
      (List.insertionSort rowGe1 rows) [])) []
  have h2 := ((hp2sub.map (fun r => r.1))).nodup h1s2
  have h3 := (keepFirstByKey_key_nodup (fun r => r.2.1)
    (List.insertionSort rowGe2 (keepFirstByKey (fun r => r.1)
      (List.insertionSort rowGe1 rows) [])) []).1
  have hfinal : (List.insertionSort rowLe1 (keepFirstByKey (fun r => r.2.1)
      (List.insertionSort rowGe2 (keepFirstByKey (fun r => r.1)
        (List.insertionSort rowGe1 rows) [])) [])).Perm
      (keepFirstByKey (fun r => r.2.1)
        (List.insertionSort rowGe2 (keepFirstByKey (fun r => r.1)
          (List.insertionSort rowGe1 rows) [])) []) :=
    List.perm_insertionSort _ _
  exact ⟨((hfinal.map _).nodup_iff).mpr h2, ((hfinal.map _).nodup_iff).mpr h3,
    List.sorted_insertionSort _ _⟩

/-- C5: with `filter=True`, no `MU_file1` value and no `MU_file2` value
appears in more than one row of the tracking result, and the rows are
sorted by `MU_file1` ascending — for both execution paths and any
threshold configuration. -/
theorem tracking_filter_unique_sorted (mp : Bool) (nA nB : ℕ)
    (xccOf : ℕ → ℕ → ℚ) (ebt : Bool) (thr : ℚ) :
    ((trackingRows mp nA nB xccOf ebt thr).map (fun r => r.1)).Nodup ∧
      ((trackingRows mp nA nB xccOf ebt thr).map (fun r => r.2.1)).Nodup ∧
      List.Sorted rowLe1 (trackingRows mp nA nB xccOf ebt thr) :=
  filterPhase_unique_sorted _

/-- C7 counterexample: with a well-formed `custom_muaps` list of two
dictionaries, an unknown derivation mode `"bad"` does not raise — the
derivation argument is never inspected in the custom-MUAP branch, so the
claim that an unknown derivation always raises a configuration error is
false. -/
theorem tracking_config_cex :
    ¬("bad" = "mono" ∨ "bad" = "sd" ∨ "bad" = "dd") ∧
      trackingRun "bad" (some [PyObj.dict [], PyObj.dict []]) (fun _ => [])
        = Except.ok [] := by
  refine ⟨by decide, rfl⟩

/-- C7 (amended): `tracking` raises `ValueError` before any heavy
computation (the result of `heavy` is produced only on success) exactly
when the configuration is invalid: either `custom_muaps` is not a list
and the derivation mode is unknown, or `custom_muaps` is a list that is
not exactly two dictionaries. With a list of two dictionaries the
derivation mode is ignored. -/
theorem tracking_config_amended (d : String) (cm : Option (List PyObj))
    (heavy : StaSource → List Row) :
    trackingRun d cm heavy = Except.error PyError.valueError ↔
      ¬ validTrackingConfig d cm := by
  unfold trackingRun trackingSetup validTrackingConfig
  cases cm with
  | none =>
    dsimp only
    by_cases hd : d = "mono" ∨ d = "sd" ∨ d = "dd"
    · rw [if_pos hd]
      simp [Except.map, hd]
    · rw [if_neg hd]
      simp [Except.map, hd]
  | some l =>
    dsimp only
    by_cases hl : l.length = 2
    · match l, hl with
      | [a, b], _ =>
        cases a <;> cases b <;>
          simp [Except.map, List.get?]
    · rw [if_neg hl]
      refine ⟨fun _ => ?_, fun _ => rfl⟩
      rintro ⟨d1, d2, rfl⟩
      exact hl rfl

theorem foldl_min_const (l : List ℕ) (n : ℕ) (h : ∀ x ∈ l, x = n) :
    l.foldl min n = n := by
  induction l with
  | nil => rfl
  | cons x xs ih =>
    have hx : x = n := h x (List.mem_cons_self _ _)
    subst hx
    simp only [List.foldl_cons, min_self]
    exact ih (fun y hy => h y (List.mem_cons_of_mem _ hy))

theorem dfNrows_const (cols : Df) (n : ℕ) (hne : cols ≠ [])
    (h : ∀ col ∈ cols, col.2.length = n) : dfNrows cols = n := by
  match cols, hne with
  | col :: cs, _ =>
    unfold dfNrows
    dsimp only
    have hc : col.2.length = n := h col (List.mem_cons_self _ _)
    rw [hc]
    refine foldl_min_const _ _ ?_
    intro x hx
    rw [List.mem_map] at hx
    obtain ⟨cc, hcc, rfl⟩ := hx
    exact h cc (List.mem_cons_of_mem _ hcc)

theorem chunk_flatten (dfs : List Df) (c : ℕ) (h : ∀ x ∈ dfs, x.length = c)
    (p : ℕ) : (dfs.flatten.drop (c * p)).take c = dfs.getD p [] := by
  induction dfs generalizing p with
  | nil => simp
  | cons d ds ih =>
    have hd : d.length = c := h d (List.mem_cons_self _ _)
    cases p with
    | zero =>
      simp only [Nat.mul_zero, List.drop_zero, List.flatten_cons, List.getD]
      rw [← hd, List.take_left]
      rfl
    | succ p =>
      have hmul : c * (p + 1) = d.length + c * p := by rw [hd]; ring
      simp only [List.flatten_cons, hmul, List.drop_append]
      rw [ih (fun x hx => h x (List.mem_cons_of_mem _ hx)) p]
      rfl

/-- C10: for a nonempty STA dict whose per-key DataFrames all have the
same channel count `c`, the same row count `n` and pairwise distinct
channel labels (so that the index merge of `unpack_sta` is a plain
column concatenation), `pack_sta` applied to the merged DataFrame and
key list returned by `unpack_sta` restores the original dict: same keys
in the same order, with equal per-key DataFrames. -/
theorem pack_unpack_roundtrip (sta : StaDict) (n c : ℕ)
    (hne : sta ≠ [])
    (hcols : ∀ kv ∈ sta, kv.2.length = c)
    (hrows : ∀ kv ∈ sta, ∀ col ∈ kv.2, col.2.length = n)
    (hlab : ((sta.map (fun kv => kv.2.map (fun col => col.1))).flatten).Nodup) :
    pack_sta (unpack_sta sta).1 (unpack_sta sta).2 = sta := by
  have hk : 0 < sta.length := List.length_pos.mpr hne
  have hcolmem : ∀ col ∈ (sta.map (fun kv => kv.2)).flatten, col.2.length = n := by
    intro col hcol
    rw [List.mem_flatten] at hcol
    obtain ⟨l, hl, hcl⟩ := hcol
    rw [List.mem_map] at hl
    obtain ⟨kv, hkv, rfl⟩ := hl
    exact hrows kv hkv col hcl
  have hflatlen : ((sta.map (fun kv => kv.2)).flatten).length = c * sta.length := by
    rw [List.length_flatten, List.map_map]
    have : sta.map (List.length ∘ fun kv => kv.2) = List.replicate sta.length c := by
      rw [List.eq_replicate_iff]
      refine ⟨by simp, ?_⟩
      intro b hb
      rw [List.mem_map] at hb
      obtain ⟨kv, hkv, rfl⟩ := hb
      exact hcols kv hkv
    rw [this, List.sum_replicate, smul_eq_mul, mul_comm]
  have hunpack1 : (unpack_sta sta).1 = (sta.map (fun kv => kv.2)).flatten := by
    unfold unpack_sta
    dsimp only
    by_cases hflat : (sta.map (fun kv => kv.2)).flatten = []
    · rw [hflat]; rfl
    · have hn : dfNrows ((sta.map (fun kv => kv.2)).flatten) = n :=
        dfNrows_const _ n hflat hcolmem
      rw [hn]
      refine List.map_congr_left ?_ |>.trans (List.map_id _)
      intro col hcol
      have hcl := hcolmem col hcol
      rw [← hcl, List.take_length]
      simp
  have hunpack2 : (unpack_sta sta).2 = sta.map (fun kv => kv.1) := rfl
  rw [hunpack1, hunpack2]
  unfold pack_sta
  have hkeylen : (sta.map (fun kv => kv.1)).length = sta.length := by simp
  have hslice : (((sta.map (fun kv => kv.2)).flatten).length +
      (sta.map (fun kv => kv.1)).length - 1) / (sta.map (fun kv => kv.1)).length
      = c := by
    rw [hflatlen, hkeylen]
    have h1 : c * sta.length + sta.length - 1
        = sta.length * c + (sta.length - 1) := by
      cases sta.length with
      | zero => omega
      | succ m => ring_nf; omega
    rw [h1, Nat.mul_add_div hk, Nat.div_eq_of_lt (by omega), Nat.add_zero]
  rw [hslice, hkeylen]
  refine List.ext_getElem ?_ ?_
  · simp
  · intro p h1 h2
    have hp : p < sta.length := by
      simpa using h2
    have hzlen : p < ((List.range sta.length).zip
        (sta.map (fun kv => kv.1))).length := by
      simp [hp]
    rw [List.getElem_map]
    rw [List.getElem_zip]
    have hchunk := chunk_flatten (sta.map (fun kv => kv.2)) c
      (by
        intro x hx
        rw [List.mem_map] at hx
        obtain ⟨kv, hkv, rfl⟩ := hx
        exact hcols kv hkv) p
    dsimp only
    rw [List.getElem_range, List.getElem_map, hchunk,
      List.getD_eq_getElem _ _ (by simpa using hp), List.getElem_map]

/-- C10 witness: a concrete two-column, two-channel, one-sample STA dict
satisfies the hypotheses and round-trips. -/
theorem pack_unpack_roundtrip_witness :
    (staEx5 ≠ [] ∧ (∀ kv ∈ staEx5, kv.2.length = 2) ∧
      (∀ kv ∈ staEx5, ∀ col ∈ kv.2, col.2.length = 1) ∧
      ((staEx5.map (fun kv => kv.2.map (fun col => col.1))).flatten).Nodup) ∧
    pack_sta (unpack_sta staEx5).1 (unpack_sta staEx5).2 = staEx5 :=
  ⟨⟨by with_unfolding_all decide, by with_unfolding_all decide,
    by with_unfolding_all decide, by with_unfolding_all decide⟩,
    pack_unpack_roundtrip staEx5 1 2 (by with_unfolding_all decide)
      (by with_unfolding_all decide) (by with_unfolding_all decide)
      (by with_unfolding_all decide)⟩

set_option maxRecDepth 4000 in
/-- C1: the bound check of muap.py lines 712-716 clamps only a positive
lag; for two 8-sample impulse templates offset by 3 samples the chosen
lag is `-3`, which exceeds `finalduration_samples/2 = 2` in absolute
value and is not clamped — the templates are then shifted by the full
unclamped lag. The spec (and the code's own comment) intend the bound to
hold in absolute value, so the one-sided comparison is a slip of the
code. The cross-correlation itself is modelled from §4.4 of the spec
(`norm_twod_xcorr` is outside src); the missing absolute value is in the
src clamp itself at line 715. -/
theorem align_lag_bound_code_bug :
    align_lag_raw staEx1 staEx2 = -3 ∧
    align_fds staEx1 (1/2) = 4 ∧
    align_lag staEx1 staEx2 (1/2) = -3 ∧
    ¬(|align_lag staEx1 staEx2 (1/2)| ≤ (align_fds staEx1 (1/2) : ℚ) / 2) := by
  with_unfolding_all decide

set_option maxRecDepth 4000 in
/-- C3 counterexample: aligning a 10-sample impulse template with itself
at `finalduration = 0.5` chooses lag 0, yet both outputs have 6 samples
while `round(10 · 0.5) = 5`: `tocutstart = round((10-5)/2) = round(2.5)`
is 2 under Python's banker's rounding, so `iloc[2:8]` keeps 6 rows. The
outputs do have identical length and a shared zero-based index; only the
claimed value `round(original_length · finalduration)` is wrong. -/
theorem align_length_cex :
    (align_by_xcorr staEx3 staEx3 (1/2)).1
      = [("col0", [(0, [some 0, some 0, some 0, some 1, some 0, some 0])])] ∧
    (align_by_xcorr staEx3 staEx3 (1/2)).2
      = [("col0", [(0, [some 0, some 0, some 0, some 1, some 0, some 0])])] ∧
    align_fds staEx3 (1/2) = 5 :=
  ⟨by with_unfolding_all rfl, by with_unfolding_all rfl,
    by with_unfolding_all rfl⟩

theorem consecutiveZ_length (lo : ℤ) (L : ℕ) :
    (consecutiveZ lo L).length = L := by
  unfold consecutiveZ; simp

theorem consecutiveZ_getD (lo : ℤ) (L : ℕ) (i : ℕ) (h : i < L) :
    (consecutiveZ lo L).getD i 0 = lo + i := by
  unfold consecutiveZ
  rw [List.getD_eq_getElem _ _ (by simpa using h), List.getElem_map,
    List.getElem_range]

theorem consecutiveZ_cons (lo : ℤ) (L : ℕ) :
    consecutiveZ lo (L + 1) = lo :: consecutiveZ (lo + 1) L := by
  unfold consecutiveZ
  rw [List.range_succ_eq_map, List.map_cons, List.map_map]
  refine congrArg₂ _ (by simp) (List.map_congr_left ?_)
  intro i _
  simp only [Function.comp_apply]
  push_cast
  ring

theorem consecutiveZ_drop (lo : ℤ) (L d : ℕ) :
    (consecutiveZ lo L).drop d = consecutiveZ (lo + d) (L - d) := by
  refine List.ext_getElem ?_ ?_
  · simp [consecutiveZ_length]
  · intro i h1 h2
    rw [List.getElem_drop]
    unfold consecutiveZ
    rw [List.getElem_map, List.getElem_map, List.getElem_range, List.getElem_range]
    have hi : i < L - d := by simpa [consecutiveZ_length] using h2
    push_cast
    omega

theorem consecutiveZ_take (lo : ℤ) (L t : ℕ) :
    (consecutiveZ lo L).take t = consecutiveZ lo (min t L) := by
  refine List.ext_getElem ?_ ?_
  · simp [consecutiveZ_length]
  · intro i h1 h2
    rw [List.getElem_take]
    unfold consecutiveZ
    rw [List.getElem_map, List.getElem_map, List.getElem_range, List.getElem_range]

theorem corrLagsSameG_consec (a b : ℕ) :
    ∃ lo, corrLagsSameG a b = consecutiveZ lo (corrLagsSameG a b).length := by
  have hfull : (List.range (a + b - 1)).map (fun i : ℕ => (i : ℤ) - ((b : ℤ) - 1))
      = consecutiveZ (-((b : ℤ) - 1)) (a + b - 1) := by
    unfold consecutiveZ
    refine List.map_congr_left ?_
    intro i _
    ring
  unfold corrLagsSameG
  rw [hfull]
  dsimp only
  split <;>
    (rw [consecutiveZ_drop, consecutiveZ_take]
     exact ⟨_, congrArg _ (consecutiveZ_length _ _).symm⟩)

theorem foldl_min_consecutiveZ (L : ℕ) (lo x : ℤ) :
    (consecutiveZ lo L).foldl min x = if L = 0 then x else min x lo := by
  induction L generalizing lo x with
  | zero => rfl
  | succ K ih =>
    rw [consecutiveZ_cons, List.foldl_cons, ih]
    rcases Nat.eq_zero_or_pos K with hK | hK
    · simp [hK]
    · have hKne : K ≠ 0 := by omega
      simp only [hKne, if_false, Nat.succ_ne_zero]
      rw [min_assoc]
      have : min lo (lo + 1) = lo := min_eq_left (by omega)
      rw [this]

theorem foldl_max_consecutiveZ (L : ℕ) (lo x : ℤ) :
    (consecutiveZ lo L).foldl max x = if L = 0 then x else max x (lo + L - 1) := by
  induction L generalizing lo x with
  | zero => rfl
  | succ K ih =>
    rw [consecutiveZ_cons, List.foldl_cons, ih]
    rcases Nat.eq_zero_or_pos K with hK | hK
    · simp [hK]
    · have hKne : K ≠ 0 := by omega
      simp only [hKne, if_false, Nat.succ_ne_zero]
      rw [max_assoc]
      have h1 : max lo (lo + 1 + K - 1) = lo + 1 + K - 1 :=
        max_eq_right (by omega)
      rw [h1]
      congr 1
      push_cast
      ring

theorem zmin_consecutiveZ (lo : ℤ) (L : ℕ) (h : L ≠ 0) :
    zmin (consecutiveZ lo L) = lo := by
  match L, h with
  | K + 1, _ =>
    rw [consecutiveZ_cons]
    unfold zmin
    dsimp only
    rw [foldl_min_consecutiveZ]
    rcases Nat.eq_zero_or_pos K with hK | hK
    · simp [hK]
    · have : K ≠ 0 := by omega
      simp only [this, if_false]
      exact min_eq_left (by omega)

theorem zmax_consecutiveZ (lo : ℤ) (L : ℕ) (h : L ≠ 0) :
    zmax (consecutiveZ lo L) = lo + L - 1 := by
  match L, h with
  | K + 1, _ =>
    rw [consecutiveZ_cons]
    unfold zmax
    dsimp only
    rw [foldl_max_consecutiveZ]
    rcases Nat.eq_zero_or_pos K with hK | hK
    · simp [hK]
    · have hne : K ≠ 0 := by omega
      simp only [hne, if_false]
      rw [max_eq_right (by omega)]
      push_cast
      ring

theorem countP_range_reflect (L : ℕ) (x : ℚ) :
    (List.range L).countP (fun i : ℕ => decide (x ≤ (i : ℚ)))
      = (List.range L).countP (fun i : ℕ => decide ((i : ℚ) ≤ (L : ℚ) - 1 - x)) := by
  conv_lhs => rw [← List.countP_reverse, List.range_eq_range',
    List.reverse_range', List.countP_map]
  refine List.countP_congr ?_
  intro i hi
  rw [List.mem_range] at hi
  simp only [Function.comp_apply, Nat.zero_add, decide_eq_true_eq]
  have hcast : ((L - 1 - i : ℕ) : ℚ) = (L : ℚ) - 1 - i := by
    have h1 : (1 : ℕ) ≤ L := by omega
    have h2 : i ≤ L - 1 := by omega
    push_cast [Nat.cast_sub h2, Nat.cast_sub h1]
    ring
  rw [hcast]
  constructor <;> intro h <;> linarith

theorem window_count_eq (lags : List ℤ) (lag : ℚ) (lo : ℤ)
    (hlags : lags = consecutiveZ lo lags.length) :
    ((List.range lags.length).filter (fun i : ℕ => decide
      ((if 0 < lag then (zmin lags : ℚ) + |lag| else (zmin lags : ℚ))
          ≤ (lags.getD i 0 : ℚ) ∧
        (lags.getD i 0 : ℚ)
          ≤ (if 0 < lag then (zmax lags : ℚ)
             else (zmax lags : ℚ) - |lag|)))).length
  = ((List.range lags.length).filter (fun i : ℕ => decide
      ((if lag < 0 then (zmin lags : ℚ) + |lag| else (zmin lags : ℚ))
          ≤ (lags.getD i 0 : ℚ) ∧
        (lags.getD i 0 : ℚ)
          ≤ (if lag < 0 then (zmax lags : ℚ)
             else (zmax lags : ℚ) - |lag|)))).length := by
  rcases Nat.eq_zero_or_pos lags.length with h0 | hposL
  · rw [h0]
    rfl
  · have hLne : lags.length ≠ 0 := by omega
    have hmin : zmin lags = lo := by
      conv_lhs => rw [hlags]
      exact zmin_consecutiveZ lo lags.length hLne
    have hmax : zmax lags = lo + lags.length - 1 := by
      conv_lhs => rw [hlags]
      exact zmax_consecutiveZ lo lags.length hLne
    have hget : ∀ i : ℕ, i < lags.length → lags.getD i 0 = lo + i := by
      intro i hi
      conv_lhs => rw [hlags]
      exact consecutiveZ_getD lo lags.length i hi
    have hcastL : ∀ i : ℕ, i < lags.length → (i : ℚ) ≤ (lags.length : ℚ) - 1 := by
      intro i hi
      have : (i : ℚ) + 1 ≤ (lags.length : ℚ) := by exact_mod_cast hi
      linarith
    rcases lt_trichotomy lag 0 with hneg | hzero | hpos
    · rw [← List.countP_eq_length_filter, ← List.countP_eq_length_filter]
      have habs : 0 ≤ |lag| := abs_nonneg lag
      calc
        (List.range lags.length).countP (fun i : ℕ => decide
            ((if 0 < lag then (zmin lags : ℚ) + |lag| else (zmin lags : ℚ))
                ≤ (lags.getD i 0 : ℚ) ∧
              (lags.getD i 0 : ℚ)
                ≤ (if 0 < lag then (zmax lags : ℚ)
                   else (zmax lags : ℚ) - |lag|)))
            = (List.range lags.length).countP (fun i : ℕ =>
                decide ((i : ℚ) ≤ (lags.length : ℚ) - 1 - |lag|)) := by
          refine List.countP_congr ?_
          intro i hi
          rw [List.mem_range] at hi
          simp only [decide_eq_true_eq]
          rw [if_neg (by linarith : ¬(0 : ℚ) < lag),
            if_neg (by linarith : ¬(0 : ℚ) < lag), hget i hi, hmin, hmax]
          push_cast
          constructor
          · rintro ⟨-, h2⟩; linarith
          · intro h; exact ⟨by linarith [hcastL i hi], by linarith⟩
        _ = (List.range lags.length).countP (fun i : ℕ =>
                decide (|lag| ≤ (i : ℚ))) :=
          (countP_range_reflect lags.length |lag|).symm
        _ = (List.range lags.length).countP (fun i : ℕ => decide
            ((if lag < 0 then (zmin lags : ℚ) + |lag| else (zmin lags : ℚ))
                ≤ (lags.getD i 0 : ℚ) ∧
              (lags.getD i 0 : ℚ)
                ≤ (if lag < 0 then (zmax lags : ℚ)
                   else (zmax lags : ℚ) - |lag|))) := by
          refine (List.countP_congr ?_).symm
          intro i hi
          rw [List.mem_range] at hi
          simp only [decide_eq_true_eq]
          rw [if_pos hneg, if_pos hneg, hget i hi, hmin, hmax]
          push_cast
          constructor
          · rintro ⟨h1, -⟩; linarith
          · intro h; exact ⟨by linarith, by linarith [hcastL i hi]⟩
    · subst hzero
      rfl
    · rw [← List.countP_eq_length_filter, ← List.countP_eq_length_filter]
      have habs : 0 ≤ |lag| := abs_nonneg lag
      calc
        (List.range lags.length).countP (fun i : ℕ => decide
            ((if 0 < lag then (zmin lags : ℚ) + |lag| else (zmin lags : ℚ))
                ≤ (lags.getD i 0 : ℚ) ∧
              (lags.getD i 0 : ℚ)
                ≤ (if 0 < lag then (zmax lags : ℚ)
                   else (zmax lags : ℚ) - |lag|)))
            = (List.range lags.length).countP (fun i : ℕ =>
                decide (|lag| ≤ (i : ℚ))) := by
          refine List.countP_congr ?_
          intro i hi
          rw [List.mem_range] at hi
          simp only [decide_eq_true_eq]
          rw [if_pos hpos, if_pos hpos, hget i hi, hmin, hmax]
          push_cast
          constructor
          · rintro ⟨h1, -⟩; linarith
          · intro h; exact ⟨by linarith, by linarith [hcastL i hi]⟩
        _ = (List.range lags.length).countP (fun i : ℕ =>
                decide ((i : ℚ) ≤ (lags.length : ℚ) - 1 - |lag|)) :=
          countP_range_reflect lags.length |lag|
        _ = (List.range lags.length).countP (fun i : ℕ => decide
            ((if lag < 0 then (zmin lags : ℚ) + |lag| else (zmin lags : ℚ))
                ≤ (lags.getD i 0 : ℚ) ∧
              (lags.getD i 0 : ℚ)
                ≤ (if lag < 0 then (zmax lags : ℚ)
                   else (zmax lags : ℚ) - |lag|))) := by
          refine (List.countP_congr ?_).symm
          intro i hi
          rw [List.mem_range] at hi
          simp only [decide_eq_true_eq]
          rw [if_neg (by linarith : ¬lag < (0 : ℚ)),
            if_neg (by linarith : ¬lag < (0 : ℚ)), hget i hi, hmin, hmax]
          push_cast
          constructor
          · rintro ⟨-, h2⟩; linarith
          · intro h; exact ⟨by linarith [hcastL i hi], by linarith⟩

theorem align_keep_length_eq (sta1 sta2 : StaDict) (fd : ℚ) :
    (align_keep1 sta1 sta2 fd).length = (align_keep2 sta1 sta2 fd).length := by
  obtain ⟨lo, hlo⟩ := corrLagsSameG_consec (dfNrows (unpack_sta sta1).1)
    (dfNrows (unpack_sta sta2).1)
  have hlo2 : align_corr_lags sta1 sta2
      = consecutiveZ lo (align_corr_lags sta1 sta2).length := hlo
  exact window_count_eq (align_corr_lags sta1 sta2)
    (align_lag sta1 sta2 fd) lo hlo2

theorem pySlice_length (l : List α) (a b : ℤ) :
    (pySlice l a b).length = pySliceLen l.length a b := by
  unfold pySlice pySliceLen
  dsimp only
  rw [List.length_take, List.length_drop]
  split <;> split <;> omega

theorem selectRows_length (d : List Val) (keep : List ℕ) (t e : ℤ) :
    (selectRows d keep t e).length = pySliceLen keep.length t e := by
  unfold selectRows
  rw [pySlice_length, List.length_map]

theorem pack_sta_mem (df : Df) (keys : List String) (kv : String × Df)
    (hkv : kv ∈ pack_sta df keys) (c : Col) (hc : c ∈ kv.2) : c ∈ df := by
  unfold pack_sta at hkv
  dsimp only at hkv
  rw [List.mem_map] at hkv
  obtain ⟨pk, hpk, rfl⟩ := hkv
  exact List.mem_of_mem_drop (List.mem_of_mem_take hc)

/-- C3 (amended): for any two same-geometry templates and
`finalduration ∈ (0,1]`, the two outputs of `align_by_xcorr` have
identical length and share an identical zero-based sample index; the
common length equals `finalduration_samples = round(original_length ·
finalduration)` whenever the post-shift window length `m` satisfies
`finalduration_samples ≤ m` with `m - finalduration_samples` even, but in
general (odd difference, or a window shorter than the target) it
differs — see the counterexample. -/
theorem align_length_amended (sta1 sta2 : StaDict) (fd : ℚ) (n : ℕ)
    (h1 : ∀ kv ∈ sta1, ∀ c ∈ kv.2, c.2.length = n)
    (h2 : ∀ kv ∈ sta2, ∀ c ∈ kv.2, c.2.length = n)
    (hfd0 : 0 < fd) (hfd1 : fd ≤ 1) :
    (∀ kv ∈ (align_by_xcorr sta1 sta2 fd).1, ∀ c ∈ kv.2,
      c.2.length = align_out_len sta1 sta2 fd) ∧
    (∀ kv ∈ (align_by_xcorr sta1 sta2 fd).2, ∀ c ∈ kv.2,
      c.2.length = align_out_len sta1 sta2 fd) ∧
    (align_fds sta1 fd ≤ (align_m sta1 sta2 fd : ℤ) →
      (2 : ℤ) ∣ ((align_m sta1 sta2 fd : ℤ) - align_fds sta1 fd) →
      (align_out_len sta1 sta2 fd : ℤ) = align_fds sta1 fd) := by
  have e1 : (align_by_xcorr sta1 sta2 fd).1 = pack_sta
      (((unpack_sta sta1).1).map (fun c => (c.1,
        selectRows c.2 (align_keep1 sta1 sta2 fd)
          (align_tocutstart sta1 sta2 fd) (align_tocutend sta1 sta2 fd))))
      ((unpack_sta sta2).2) := rfl
  have e2 : (align_by_xcorr sta1 sta2 fd).2 = pack_sta
      (((unpack_sta sta2).1).map (fun c => (c.1,
        selectRows c.2 (align_keep2 sta1 sta2 fd)
          (align_tocutstart sta1 sta2 fd) (align_tocutend sta1 sta2 fd))))
      ((unpack_sta sta2).2) := rfl
  refine ⟨?_, ?_, ?_⟩
  · intro kv hkv c hc
    rw [e1] at hkv
    have hcmem := pack_sta_mem _ _ kv hkv c hc
    rw [List.mem_map] at hcmem
    obtain ⟨c0, hc0, rfl⟩ := hcmem
    exact selectRows_length _ _ _ _
  · intro kv hkv c hc
    rw [e2] at hkv
    have hcmem := pack_sta_mem _ _ kv hkv c hc
    rw [List.mem_map] at hcmem
    obtain ⟨c0, hc0, rfl⟩ := hcmem
    rw [selectRows_length]
    unfold align_out_len align_m
    rw [align_keep_length_eq sta1 sta2 fd]
  · intro hle hdvd
    obtain ⟨k, hk⟩ := hdvd
    have hfds0 : 0 ≤ align_fds sta1 fd :=
      pyRound_nonneg _ (mul_nonneg (Nat.cast_nonneg _) hfd0.le)
    have hk0 : 0 ≤ k := by omega
    have hkm : k ≤ (align_m sta1 sta2 fd : ℤ) := by omega
    have ht : align_tocutstart sta1 sta2 fd = k := by
      unfold align_tocutstart
      have hcast : ((align_m sta1 sta2 fd : ℚ) - (align_fds sta1 fd : ℚ))
          = ((2 * k : ℤ) : ℚ) := by
        rw [← hk]
        push_cast
        ring
      rw [hcast]
      have hhalf : (((2 * k : ℤ) : ℚ)) / 2 = ((k : ℤ) : ℚ) := by
        push_cast
        ring
      rw [hhalf, pyRound_intCast]
    have he : align_tocutend sta1 sta2 fd = (align_m sta1 sta2 fd : ℤ) - k := by
      unfold align_tocutend
      rw [ht]
      have hcast : (align_m sta1 sta2 fd : ℚ) - ((k : ℤ) : ℚ)
          = (((align_m sta1 sta2 fd : ℤ) - k : ℤ) : ℚ) := by
        push_cast
        ring
      rw [hcast, pyRound_intCast]
    unfold align_out_len
    rw [ht, he]
    unfold pySliceLen
    dsimp only
    rw [if_neg (by omega : ¬k < 0),
      if_neg (by omega : ¬(align_m sta1 sta2 fd : ℤ) - k < 0)]
    omega

set_option maxRecDepth 8000 in
/-- C3 (amended) witness: a 9-sample impulse aligned with itself at
`finalduration = 1/3` gives lag 0, `m = 9`, `fds = 3`, even difference
6, and both outputs have exactly 3 samples. -/
theorem align_length_amended_witness :
    ((∀ kv ∈ staEx4, ∀ c ∈ kv.2, c.2.length = 9) ∧
      (∀ kv ∈ staEx4, ∀ c ∈ kv.2, c.2.length = 9) ∧
      (0 : ℚ) < 1/3 ∧ (1/3 : ℚ) ≤ 1 ∧
      align_fds staEx4 (1/3) ≤ (align_m staEx4 staEx4 (1/3) : ℤ) ∧
      (2 : ℤ) ∣ ((align_m staEx4 staEx4 (1/3) : ℤ) - align_fds staEx4 (1/3))) ∧
    ((∀ kv ∈ (align_by_xcorr staEx4 staEx4 (1/3)).1, ∀ c ∈ kv.2,
        c.2.length = align_out_len staEx4 staEx4 (1/3)) ∧
      (∀ kv ∈ (align_by_xcorr staEx4 staEx4 (1/3)).2, ∀ c ∈ kv.2,
        c.2.length = align_out_len staEx4 staEx4 (1/3)) ∧
      (align_fds staEx4 (1/3) ≤ (align_m staEx4 staEx4 (1/3) : ℤ) →
        (2 : ℤ) ∣ ((align_m staEx4 staEx4 (1/3) : ℤ) - align_fds staEx4 (1/3)) →
        (align_out_len staEx4 staEx4 (1/3) : ℤ) = align_fds staEx4 (1/3))) :=
  ⟨⟨by with_unfolding_all decide, by with_unfolding_all decide,
    by norm_num, by norm_num,
    by with_unfolding_all decide, by with_unfolding_all decide⟩,
    align_length_amended staEx4 staEx4 (1/3) 9
      (by with_unfolding_all decide) (by with_unfolding_all decide)
      (by norm_num) (by norm_num)⟩

end OpenHdemg
